import Mathlib

/-! Shallow embedding of mon_conj_method.py, the monotone conjugation
method: the ranking routine get_ranks, the check check_mon_conj, and the
output line written by save_result, together with proofs of the
specified properties. Python ints are modelled by unbounded integers,
the floating point data and rank values by exact rationals, and a raised
exception by the error branch of Except carrying the message. -/

namespace MonConj

/-- Comparison used to model sorting the indices of xs by value,
ascending; ties between equal values are ordered by index. This is the
stable order, one admissible outcome of np.argsort: the default kind of
np.argsort only guarantees a sorted order (see isSortingPerm below for
that guaranteed contract; stability is documented for the kinds
mergesort and stable only). -/
@[reducible] def keyLt (xs : List ℚ) (i j : ℕ) : Prop :=
  xs.getD i 0 < xs.getD j 0 ∨ (xs.getD i 0 = xs.getD j 0 ∧ i ≤ j)

instance keyLtDecidable (xs : List ℚ) : DecidableRel (keyLt xs) := fun _ _ =>
  inferInstanceAs (Decidable (_ ∨ _))

instance keyLtTotal (xs : List ℚ) : IsTotal ℕ (keyLt xs) := by
  constructor
  intro i j
  rcases lt_trichotomy (xs.getD i 0) (xs.getD j 0) with h | h | h
  · exact Or.inl (Or.inl h)
  · rcases Nat.le_total i j with hij | hij
    · exact Or.inl (Or.inr ⟨h, hij⟩)
    · exact Or.inr (Or.inr ⟨h.symm, hij⟩)
  · exact Or.inr (Or.inl h)

instance keyLtTrans (xs : List ℚ) : IsTrans ℕ (keyLt xs) := by
  constructor
  intro i j k hij hjk
  rcases hij with h1 | ⟨h1, hi⟩ <;> rcases hjk with h2 | ⟨h2, hj⟩
  · exact Or.inl (h1.trans h2)
  · exact Or.inl (h2 ▸ h1)
  · exact Or.inl (h1 ▸ h2)
  · exact Or.inr ⟨h1.trans h2, hi.trans hj⟩

/-- Models sorted_idx = np.argsort(xs): the indices 0 .. len(xs)-1
reordered so that xs is ascending along them. -/
def argsort (xs : List ℚ) : List ℕ :=
  List.insertionSort (keyLt xs) (List.range xs.length)

/-- Rank of the value x among the entries of v in the average method of
scipy.stats.rankdata: (number of entries below x) + ((number of entries
equal to x) + 1)/2. The smallest entry receives rank 1; tied entries
receive the mean of the ranks they jointly occupy. -/
def rankAt (v : List ℚ) (x : ℚ) : ℚ :=
  (v.countP (fun y => decide (y < x)) : ℚ) +
    ((v.countP (fun y => decide (y = x)) : ℚ) + 1) / 2

/-- Models scipy.stats.rankdata(v) with its default method (average). -/
def rankdata (v : List ℚ) : List ℚ := v.map (rankAt v)

/-- Models numpy fancy indexing ys[idx]: every index must be in bounds,
otherwise the operation raises (IndexError). -/
def gather (ys : List ℚ) (idx : List ℕ) : Option (List ℚ) :=
  if idx.all (fun i => decide (i < ys.length)) then
    some (idx.map (fun i => ys.getD i 0))
  else none

/-- get_ranks(xs, ys): argsort by x, take ys in that order, return
rankdata(-ys). When ys is shorter than xs the fancy indexing
ys[sorted_idx] raises an IndexError, modelled by the error branch (the
exact numpy message text is not modelled). -/
def get_ranks (xs ys : List ℚ) : Except String (List ℚ) :=
  match gather ys (argsort xs) with
  | none => .error "IndexError"
  | some ys2 => .ok (rankdata (ys2.map (fun y => -y)))

/-- Models p = round(N / 3). For an integer N the value N/3 is never
half way between two integers (2N/3 odd forces 3 dvd N and then 2N/3
even), so round(N/3) is simply the integer nearest to N/3, which is
(2N + 3) / 6 in integer division. -/
def pRound (N : ℕ) : ℕ := (2 * N + 3) / 6

/-- Models Python int(x): truncation toward zero. -/
def pyInt (x : ℚ) : ℤ := if 0 ≤ x then ⌊x⌋ else ⌈x⌉

/-- Models Python round(x): the nearest integer, ties to the even
integer. -/
def bankersRound (x : ℚ) : ℤ :=
  if x - ⌊x⌋ < 1/2 then ⌊x⌋
  else if 1/2 < x - ⌊x⌋ then ⌊x⌋ + 1
  else if ⌊x⌋ % 2 = 0 then ⌊x⌋ else ⌊x⌋ + 1

/-- Models Python round(x, 2): round half to even at two decimals. -/
def pyRound2 (x : ℚ) : ℚ := (bankersRound (x * 100) : ℚ) / 100

/-- Integer square root of n: the number of positive k with k*k ≤ n. -/
def isqrt (n : ℕ) : ℕ :=
  (List.range (n + 1)).countP (fun k => decide (0 < k ∧ k * k ≤ n))

/-- Models round((N + 0.5) * sqrt(p / 6)) without leaving the rationals:
for q = (N + 1/2)^2 * (p/6) ≥ 0 the rounded real value is √q, and with
t = isqrt(⌊4q⌋) = ⌊2√q⌋: if t is even then √q lies in [t/2, t/2 + 1/2)
and rounds to t/2; if t is odd then √q lies in [(t+1)/2 - 1/2, (t+1)/2)
and rounds to (t+1)/2, except at the exact tie 4q = t^2, where
√q = (t+1)/2 - 1/2 and Python round picks the even neighbour. -/
def roundSqrtN (q : ℚ) : ℕ :=
  if isqrt (Int.toNat ⌊4 * q⌋) % 2 = 0 then isqrt (Int.toNat ⌊4 * q⌋) / 2
  else if 4 * q = (isqrt (Int.toNat ⌊4 * q⌋) : ℚ) ^ 2 then
    (if ((isqrt (Int.toNat ⌊4 * q⌋) + 1) / 2) % 2 = 0 then
      (isqrt (Int.toNat ⌊4 * q⌋) + 1) / 2
    else (isqrt (Int.toNat ⌊4 * q⌋) + 1) / 2 - 1)
  else (isqrt (Int.toNat ⌊4 * q⌋) + 1) / 2

/-- check_mon_conj(xs, ys): the conjugation check. N is len(xs); below 9
points it raises ValueError("Number of points must be not less than 9").
Otherwise p = round(N/3), ranks = get_ranks(xs, ys), R1 and R2 are the
sums of the first p and last p ranks, and the returned triple is
(int(R1 - R2), round((N + 0.5) * sqrt(p/6)), round(rate, 2)) with
rate = (R1 - R2) / (p * (N - p)). -/
def check_mon_conj (xs ys : List ℚ) : Except String (ℤ × ℤ × ℚ) :=
  if xs.length < 9 then .error "Number of points must be not less than 9"
  else
    match get_ranks xs ys with
    | .error e => .error e
    | .ok ranks =>
      .ok (pyInt ((ranks.take (pRound xs.length)).sum -
              (ranks.drop (ranks.length - pRound xs.length)).sum),
           (roundSqrtN (((xs.length : ℚ) + 1/2) ^ 2 *
              ((pRound xs.length : ℚ) / 6)) : ℤ),
           pyRound2 (((ranks.take (pRound xs.length)).sum -
              (ranks.drop (ranks.length - pRound xs.length)).sum) /
              ((pRound xs.length : ℚ) *
                ((xs.length : ℚ) - (pRound xs.length : ℚ)))))

/-- The y values in x-sorted order, as formed inside get_ranks. -/
def ysOrd (xs ys : List ℚ) : List ℚ := (argsort xs).map (fun i => ys.getD i 0)

/-- R1 - R2: the sum of the first p ranks minus the sum of the last p
ranks (0 when get_ranks raises). -/
def rankDiff (xs ys : List ℚ) : ℚ :=
  match get_ranks xs ys with
  | .error _ => 0
  | .ok ranks => (ranks.take (pRound xs.length)).sum -
      (ranks.drop (ranks.length - pRound xs.length)).sum

/-- R1: the sum of the first p ranks (0 when get_ranks raises). -/
def R1of (xs ys : List ℚ) : ℚ :=
  match get_ranks xs ys with
  | .error _ => 0
  | .ok ranks => (ranks.take (pRound xs.length)).sum

/-- The conjugation rate (R1 - R2) / (p * (N - p)) before its 2-decimal
rounding. -/
def conjRate (xs ys : List ℚ) : ℚ :=
  rankDiff xs ys /
    ((pRound xs.length : ℚ) * ((xs.length : ℚ) - (pRound xs.length : ℚ)))

/-- The fractional digit block Python str writes for a float that is an
exact multiple of 0.01, given the two decimal digits as fp < 100: the
shortest representation drops a trailing zero digit ("1.5" rather than
"1.50") but keeps at least one digit ("1.0"). -/
def fracPartStr (fp : ℕ) : String :=
  if fp % 10 = 0 then toString (fp / 10)
  else if fp < 10 then "0" ++ toString fp
  else toString fp

/-- Models CPython str(x) for a float x that is an exact multiple of
0.01 — every third component produced by check_mon_conj is such a value,
and python prints the shortest decimal form: sign, integer part, dot,
fractional digits. (The sign of a float negative zero is not modelled.) -/
def pyFloatStr (x : ℚ) : String :=
  (if x < 0 then "-" else "") ++ toString ((⌊x * 100⌋).natAbs / 100) ++ "." ++
    fracPartStr ((⌊x * 100⌋).natAbs % 100)

/-- save_result: the single line written to the output file, the three
results separated by spaces, followed by a newline. -/
def saveLine (r : ℤ × ℤ × ℚ) : String :=
  toString r.1 ++ " " ++ toString r.2.1 ++ " " ++ pyFloatStr r.2.2 ++ "\n"

/-- main(in_path, out_path): read xs, ys; run the check; write the line.
The returned value is the content written to the output file; none when
check_mon_conj raised, so that save_result was never reached and nothing
was written. -/
def mainModel (xs ys : List ℚ) : Option String :=
  match check_mon_conj xs ys with
  | .error _ => none
  | .ok r => some (saveLine r)

/-- The contract np.argsort guarantees for its result whatever the kind:
an index permutation of 0 .. len-1 along which xs is nondecreasing. The
default kind promises nothing more; stability is documented only for
the kinds mergesort and stable. -/
@[reducible] def isSortingPerm (xs : List ℚ) (idx : List ℕ) : Prop :=
  idx.Perm (List.range xs.length) ∧
    idx.Pairwise (fun i j => xs.getD i 0 ≤ xs.getD j 0)

/-- Stability of a sorting permutation: indices carrying equal values
appear in their original relative order. -/
@[reducible] def preservesEqualOrder (xs : List ℚ) (idx : List ℕ) : Prop :=
  idx.Pairwise (fun i j => xs.getD i 0 = xs.getD j 0 → i ≤ j)

/-- Indicator weight of the pair of positions (i, j) used in the double
counting argument: 2, 1 or 0 according as the entry at j is below, equal
to, or above the entry at i. -/
def cmpWeight (v : List ℚ) (i j : ℕ) : ℚ :=
  (if v.getD j 0 < v.getD i 0 then 1 else 0) +
    (if v.getD j 0 ≤ v.getD i 0 then 1 else 0)

/-- The list ranked inside get_ranks. -/
def vNeg (xs ys : List ℚ) : List ℚ := (ysOrd xs ys).map (fun y => -y)

/-- The tied input used to witness C6. -/
def ysTies : List ℚ := [3, 1, 4, 1, 5, 2, 6, 2, 6]

/-- The tied input used for the C3 counterexample: in x-order the y
values are [11, 4, 18, 11, 8, 2, 16, 14, 6], whose average ranks are
[4.5, 8, 1, 4.5, 6, 9, 2, 3, 7], so R1 = 13.5 and R2 = 12. -/
def ysTie : List ℚ := [11, 4, 18, 11, 8, 2, 16, 14, 6]

/-- The number of characters after the last dot of a string: the count
of displayed decimal digits. -/
def fracDigits (s : String) : ℕ :=
  (s.data.reverse.takeWhile (fun c => decide (c ≠ '.'))).length

/-- xs = [1, ..., 9] of the worked scenarios. -/
def xsSeq : List ℚ := [1, 2, 3, 4, 5, 6, 7, 8, 9]

/-- The perfectly decreasing ys of scenario A. -/
def ysDec : List ℚ := [9, 8, 7, 6, 5, 4, 3, 2, 1]

/-- The perfectly increasing ys of scenario B. -/
def ysInc : List ℚ := [1, 2, 3, 4, 5, 6, 7, 8, 9]

/-! Counting machinery for the rank statistics. -/

/-- countP as a sum of indicators over positions. -/
lemma countP_eq_sum (v : List ℚ) (q : ℚ → Bool) :
    v.countP q = ∑ i ∈ Finset.range v.length, (if q (v.getD i 0) then 1 else 0) := by
  induction v with
  | nil => simp
  | cons a t ih =>
      rw [List.countP_cons, List.length_cons, Finset.sum_range_succ']
      simp [ih, add_comm]

/-- countP as a rational-valued sum of indicators over positions. -/
lemma countP_cast_sum (v : List ℚ) (q : ℚ → Bool) :
    (v.countP q : ℚ) =
      ∑ i ∈ Finset.range v.length, (if q (v.getD i 0) then (1 : ℚ) else 0) := by
  rw [countP_eq_sum]
  push_cast [apply_ite (Nat.cast : ℕ → ℚ)]
  rfl

/-- The entries below x together with the entries equal to x are the
entries not above x. -/
lemma countP_lt_add_eq (v : List ℚ) (x : ℚ) :
    v.countP (fun y => decide (y < x)) + v.countP (fun y => decide (y = x)) =
      v.countP (fun y => decide (y ≤ x)) := by
  induction v with
  | nil => simp
  | cons a t ih =>
      rw [List.countP_cons, List.countP_cons, List.countP_cons]
      rcases lt_trichotomy a x with h | h | h
      · simp only [decide_eq_true_eq]
        rw [if_pos h, if_neg h.ne, if_pos h.le]
        omega
      · simp only [decide_eq_true_eq]
        rw [if_neg (by rw [h]; exact lt_irrefl x), if_pos h, if_pos h.le]
        omega
      · simp only [decide_eq_true_eq]
        rw [if_neg (by exact not_lt.mpr h.le), if_neg (by exact ne_of_gt h),
          if_neg (by exact not_le.mpr h)]
        omega

/-- Twice a rank, written with the count of entries not above x. -/
lemma two_mul_rankAt (v : List ℚ) (x : ℚ) :
    2 * rankAt v x = 1 + (v.countP (fun y => decide (y < x)) : ℚ) +
      (v.countP (fun y => decide (y ≤ x)) : ℚ) := by
  rw [rankAt, ← countP_lt_add_eq v x]
  push_cast
  ring

lemma cmpWeight_nonneg (v : List ℚ) (i j : ℕ) : 0 ≤ cmpWeight v i j := by
  rw [cmpWeight]
  split <;> split <;> norm_num

lemma cmpWeight_le_two (v : List ℚ) (i j : ℕ) : cmpWeight v i j ≤ 2 := by
  rw [cmpWeight]
  split <;> split <;> norm_num

lemma cmpWeight_add_symm (v : List ℚ) (i j : ℕ) :
    cmpWeight v i j + cmpWeight v j i = 2 := by
  rw [cmpWeight, cmpWeight]
  rcases lt_trichotomy (v.getD i 0) (v.getD j 0) with h | h | h
  · rw [if_neg (asymm h), if_neg (not_le.mpr h), if_pos h, if_pos h.le]
    norm_num
  · rw [if_neg (by rw [h]; exact lt_irrefl _), if_pos h.ge,
      if_neg (by rw [h]; exact lt_irrefl _), if_pos h.le]
    norm_num
  · rw [if_pos h, if_pos h.le, if_neg (asymm h), if_neg (not_le.mpr h)]
    norm_num

/-- The double count over a square: the pair weights over S × S always
sum to the square of the size of S. -/
lemma sum_sum_cmpWeight (v : List ℚ) (S : Finset ℕ) :
    ∑ i ∈ S, ∑ j ∈ S, cmpWeight v i j = (S.card : ℚ) ^ 2 := by
  have hsym : ∑ i ∈ S, ∑ j ∈ S, cmpWeight v i j =
      ∑ i ∈ S, ∑ j ∈ S, cmpWeight v j i := Finset.sum_comm
  have h2 : (∑ i ∈ S, ∑ j ∈ S, cmpWeight v i j) +
      (∑ i ∈ S, ∑ j ∈ S, cmpWeight v i j) = 2 * (S.card : ℚ) ^ 2 := by
    nth_rewrite 2 [hsym]
    rw [← Finset.sum_add_distrib]
    have : ∀ i ∈ S, (∑ j ∈ S, cmpWeight v i j) + (∑ j ∈ S, cmpWeight v j i)
        = (S.card : ℚ) * 2 := by
      intro i _
      rw [← Finset.sum_add_distrib]
      rw [Finset.sum_congr rfl (fun j _ => cmpWeight_add_symm v i j)]
      rw [Finset.sum_const, nsmul_eq_mul]
    rw [Finset.sum_congr rfl this, Finset.sum_const, nsmul_eq_mul]
    ring
  linarith

/-- Twice the sum of the ranks over a set S of positions: the square
part from pairs inside S plus the cross weights into the complement. -/
lemma two_mul_rank_sum (v : List ℚ) (S : Finset ℕ)
    (hS : S ⊆ Finset.range v.length) :
    2 * (∑ i ∈ S, rankAt v (v.getD i 0)) =
      (S.card : ℚ) + (S.card : ℚ) ^ 2 +
        ∑ i ∈ S, ∑ j ∈ Finset.range v.length \ S, cmpWeight v i j := by
  rw [Finset.mul_sum, Finset.sum_congr rfl
    (fun i _ => two_mul_rankAt v (v.getD i 0))]
  have hw : ∀ i : ℕ, (v.countP (fun y => decide (y < v.getD i 0)) : ℚ) +
      (v.countP (fun y => decide (y ≤ v.getD i 0)) : ℚ) =
      ∑ j ∈ Finset.range v.length, cmpWeight v i j := by
    intro i
    rw [countP_cast_sum, countP_cast_sum, ← Finset.sum_add_distrib]
    refine Finset.sum_congr rfl (fun j _ => ?_)
    rw [cmpWeight]
    simp only [decide_eq_true_eq]
  have hsplit : ∀ i : ℕ, ∑ j ∈ Finset.range v.length, cmpWeight v i j =
      (∑ j ∈ Finset.range v.length \ S, cmpWeight v i j) +
        (∑ j ∈ S, cmpWeight v i j) := by
    intro i
    rw [Finset.sum_sdiff hS]
  calc ∑ i ∈ S, (1 + (v.countP (fun y => decide (y < v.getD i 0)) : ℚ) +
        (v.countP (fun y => decide (y ≤ v.getD i 0)) : ℚ))
      = ∑ i ∈ S, (1 + ((∑ j ∈ Finset.range v.length \ S, cmpWeight v i j) +
          (∑ j ∈ S, cmpWeight v i j))) := by
        refine Finset.sum_congr rfl (fun i _ => ?_)
        rw [add_assoc, hw i, hsplit i]
    _ = (S.card : ℚ) + (S.card : ℚ) ^ 2 +
        ∑ i ∈ S, ∑ j ∈ Finset.range v.length \ S, cmpWeight v i j := by
        rw [Finset.sum_add_distrib, Finset.sum_add_distrib,
          Finset.sum_const, nsmul_eq_mul, mul_one, sum_sum_cmpWeight]
        ring

/-- The sum of the ranks at any p positions is at least
1 + 2 + ... + p. -/
lemma rank_sum_lower (v : List ℚ) (S : Finset ℕ)
    (hS : S ⊆ Finset.range v.length) :
    (S.card : ℚ) * (S.card + 1) / 2 ≤ ∑ i ∈ S, rankAt v (v.getD i 0) := by
  have h := two_mul_rank_sum v S hS
  have hpos : 0 ≤ ∑ i ∈ S, ∑ j ∈ Finset.range v.length \ S, cmpWeight v i j :=
    Finset.sum_nonneg (fun i _ => Finset.sum_nonneg
      (fun j _ => cmpWeight_nonneg v i j))
  nlinarith [h, hpos]

/-- The sum of the ranks at any p positions is at most
(N - p + 1) + ... + N = p(p+1)/2 + p(N - p). -/
lemma rank_sum_upper (v : List ℚ) (S : Finset ℕ)
    (hS : S ⊆ Finset.range v.length) :
    ∑ i ∈ S, rankAt v (v.getD i 0) ≤
      (S.card : ℚ) * (S.card + 1) / 2 +
        (S.card : ℚ) * ((v.length : ℚ) - S.card) := by
  have h := two_mul_rank_sum v S hS
  have hcard : S.card ≤ v.length := by
    have := Finset.card_le_card hS
    simpa using this
  have hbound : ∑ i ∈ S, ∑ j ∈ Finset.range v.length \ S, cmpWeight v i j ≤
      (S.card : ℚ) * (2 * ((v.length : ℚ) - S.card)) := by
    have hinner : ∀ i ∈ S, ∑ j ∈ Finset.range v.length \ S, cmpWeight v i j ≤
        2 * ((v.length : ℚ) - S.card) := by
      intro i _
      have h1 : ∑ j ∈ Finset.range v.length \ S, cmpWeight v i j ≤
          ∑ _j ∈ Finset.range v.length \ S, (2 : ℚ) :=
        Finset.sum_le_sum (fun j _ => cmpWeight_le_two v i j)
      have h2 : ((Finset.range v.length \ S).card : ℚ) =
          (v.length : ℚ) - S.card := by
        rw [Finset.card_sdiff hS, Finset.card_range]
        push_cast [Nat.cast_sub hcard]
        ring
      calc ∑ j ∈ Finset.range v.length \ S, cmpWeight v i j
          ≤ ∑ _j ∈ Finset.range v.length \ S, (2 : ℚ) := h1
        _ = 2 * ((v.length : ℚ) - S.card) := by
            rw [Finset.sum_const, nsmul_eq_mul, h2]; ring
    calc ∑ i ∈ S, ∑ j ∈ Finset.range v.length \ S, cmpWeight v i j
        ≤ ∑ _i ∈ S, 2 * ((v.length : ℚ) - S.card) :=
          Finset.sum_le_sum hinner
      _ = (S.card : ℚ) * (2 * ((v.length : ℚ) - S.card)) := by
          rw [Finset.sum_const, nsmul_eq_mul]
  nlinarith [h, hbound]

/-- The sum of all ranks is N (N + 1) / 2, whatever the tie pattern. -/
lemma rank_sum_total (v : List ℚ) :
    ∑ i ∈ Finset.range v.length, rankAt v (v.getD i 0) =
      (v.length : ℚ) * ((v.length : ℚ) + 1) / 2 := by
  have h := two_mul_rank_sum v (Finset.range v.length) (subset_refl _)
  rw [Finset.sdiff_self] at h
  simp only [Finset.sum_empty, add_zero, Finset.card_range,
    Finset.sum_const_zero] at h
  nlinarith [h]

/-! Bridges between list sums and indexed finite sums. -/

/-- A list sum as a sum of positional values. -/
lemma sum_eq_getD_sum (l : List ℚ) :
    l.sum = ∑ i ∈ Finset.range l.length, l.getD i 0 := by
  induction l with
  | nil => simp
  | cons a t ih =>
      rw [List.sum_cons, List.length_cons, Finset.sum_range_succ']
      simp [ih, add_comm]

lemma getD_take (l : List ℚ) {k i : ℕ} (hik : i < k) :
    (l.take k).getD i 0 = l.getD i 0 := by
  rw [List.getD_eq_getElem?_getD, List.getD_eq_getElem?_getD,
    List.getElem?_take_of_lt hik]

/-- The sum of the first k entries. -/
lemma take_sum_eq (l : List ℚ) {k : ℕ} (hk : k ≤ l.length) :
    (l.take k).sum = ∑ i ∈ Finset.range k, l.getD i 0 := by
  rw [sum_eq_getD_sum, List.length_take, min_eq_left hk]
  exact Finset.sum_congr rfl (fun i hi =>
    getD_take l (Finset.mem_range.mp hi))

/-- The sum of the entries from position k on. -/
lemma drop_sum_eq (l : List ℚ) {k : ℕ} (hk : k ≤ l.length) :
    (l.drop k).sum = ∑ i ∈ Finset.Ico k l.length, l.getD i 0 := by
  have happ : (l.take k).sum + (l.drop k).sum = l.sum := by
    rw [← List.sum_append, List.take_append_drop]
  rw [Finset.sum_Ico_eq_sub _ hk, ← sum_eq_getD_sum, ← take_sum_eq l hk]
  linarith

lemma rankdata_length (v : List ℚ) : (rankdata v).length = v.length := by
  rw [rankdata, List.length_map]

lemma rankdata_getD (v : List ℚ) {i : ℕ} (hi : i < v.length) :
    (rankdata v).getD i 0 = rankAt v (v.getD i 0) := by
  rw [rankdata, List.getD_eq_getElem?_getD, List.getElem?_map,
    List.getElem?_eq_getElem hi, List.getD_eq_getElem?_getD,
    List.getElem?_eq_getElem hi]
  rfl

/-! Properties of argsort and get_ranks. -/

lemma argsort_perm (xs : List ℚ) :
    (argsort xs).Perm (List.range xs.length) :=
  List.perm_insertionSort _ _

lemma argsort_mem {xs : List ℚ} {i : ℕ} (h : i ∈ argsort xs) :
    i < xs.length := by
  have hmem := ((argsort_perm xs).mem_iff).mp h
  exact List.mem_range.mp hmem

lemma argsort_length (xs : List ℚ) : (argsort xs).length = xs.length := by
  rw [(argsort_perm xs).length_eq, List.length_range]

lemma argsort_sorted (xs : List ℚ) :
    (argsort xs).Pairwise (fun i j => xs.getD i 0 ≤ xs.getD j 0) := by
  have h : (argsort xs).Pairwise (keyLt xs) :=
    List.sorted_insertionSort (keyLt xs) (List.range xs.length)
  exact h.imp (fun hk => by
    rcases hk with h1 | ⟨h1, _⟩
    · exact h1.le
    · exact h1.le)

lemma ysOrd_length (xs ys : List ℚ) : (ysOrd xs ys).length = xs.length := by
  rw [ysOrd, List.length_map, argsort_length]

/-- When ys is at least as long as xs, the fancy indexing succeeds and
returns the y values in x-sorted order. -/
lemma gather_argsort {xs ys : List ℚ} (h : xs.length ≤ ys.length) :
    gather ys (argsort xs) = some (ysOrd xs ys) := by
  rw [gather, if_pos, ysOrd]
  rw [List.all_eq_true]
  intro i hi
  exact decide_eq_true (lt_of_lt_of_le (argsort_mem hi) h)

/-- When ys is shorter than xs (and xs is nonempty), the fancy indexing
hits an out-of-bounds index. -/
lemma gather_argsort_none {xs ys : List ℚ} (h0 : 0 < xs.length)
    (h : ys.length < xs.length) :
    gather ys (argsort xs) = none := by
  rw [gather, if_neg]
  intro hall
  rw [List.all_eq_true] at hall
  have hmem : xs.length - 1 ∈ argsort xs := by
    rw [(argsort_perm xs).mem_iff, List.mem_range]
    omega
  have := of_decide_eq_true (hall _ hmem)
  omega

lemma get_ranks_ok {xs ys : List ℚ} (h : xs.length ≤ ys.length) :
    get_ranks xs ys = .ok (rankdata ((ysOrd xs ys).map (fun y => -y))) := by
  rw [get_ranks, gather_argsort h]

lemma get_ranks_err {xs ys : List ℚ} (h0 : 0 < xs.length)
    (h : ys.length < xs.length) :
    get_ranks xs ys = .error "IndexError" := by
  rw [get_ranks, gather_argsort_none h0 h]

lemma vNeg_length (xs ys : List ℚ) : (vNeg xs ys).length = xs.length := by
  rw [vNeg, List.length_map, ysOrd_length]

/-! Arithmetic facts about the partition size. -/

lemma pRound_ge_three {N : ℕ} (h : 9 ≤ N) : 3 ≤ pRound N := by
  rw [pRound]; omega

lemma pRound_lt {N : ℕ} (h : 9 ≤ N) : pRound N < N := by
  rw [pRound]; omega

/-! Unfolding check_mon_conj on valid input. -/

lemma check_eq_ok {xs ys : List ℚ} (h9 : 9 ≤ xs.length)
    (hle : xs.length ≤ ys.length) :
    check_mon_conj xs ys =
      .ok (pyInt (rankDiff xs ys),
           (roundSqrtN (((xs.length : ℚ) + 1/2) ^ 2 *
              ((pRound xs.length : ℚ) / 6)) : ℤ),
           pyRound2 (conjRate xs ys)) := by
  rw [check_mon_conj, if_neg (by omega), get_ranks_ok hle, conjRate, rankDiff,
    get_ranks_ok hle]

lemma check_err_of_short {xs ys : List ℚ} (h : xs.length < 9) :
    check_mon_conj xs ys = .error "Number of points must be not less than 9" := by
  rw [check_mon_conj, if_pos h]

/-- R1 under a successful get_ranks. -/
lemma R1of_eq {xs ys : List ℚ} (hle : xs.length ≤ ys.length) :
    R1of xs ys = ((rankdata (vNeg xs ys)).take (pRound xs.length)).sum := by
  rw [R1of, get_ranks_ok hle, vNeg]

/-- R1 - R2 under a successful get_ranks. -/
lemma rankDiff_eq {xs ys : List ℚ} (hle : xs.length ≤ ys.length) :
    rankDiff xs ys = ((rankdata (vNeg xs ys)).take (pRound xs.length)).sum -
      ((rankdata (vNeg xs ys)).drop
        ((rankdata (vNeg xs ys)).length - pRound xs.length)).sum := by
  rw [rankDiff, get_ranks_ok hle, vNeg]

/-! The extremal bounds for R1, R2 and the rate. -/

/-- The first k ranks as an indexed sum. -/
lemma rank_take_sum (v : List ℚ) {k : ℕ} (hk : k ≤ v.length) :
    ((rankdata v).take k).sum =
      ∑ i ∈ Finset.range k, rankAt v (v.getD i 0) := by
  rw [take_sum_eq (rankdata v) (by rw [rankdata_length]; exact hk)]
  exact Finset.sum_congr rfl (fun i hi =>
    rankdata_getD v (lt_of_lt_of_le (Finset.mem_range.mp hi) hk))

/-- The ranks from position k on as an indexed sum. -/
lemma rank_drop_sum (v : List ℚ) {k : ℕ} (hk : k ≤ v.length) :
    ((rankdata v).drop k).sum =
      ∑ i ∈ Finset.Ico k v.length, rankAt v (v.getD i 0) := by
  rw [show ((rankdata v).drop k) = ((rankdata v).drop k) from rfl]
  rw [drop_sum_eq (rankdata v) (by rw [rankdata_length]; exact hk),
    rankdata_length]
  exact Finset.sum_congr rfl (fun i hi =>
    rankdata_getD v (Finset.mem_Ico.mp hi).2)

/-- R1 - R2 is at most p (N - p) in absolute value. -/
lemma rankDiff_abs_le {xs ys : List ℚ} (h9 : 9 ≤ xs.length)
    (hle : xs.length ≤ ys.length) :
    |rankDiff xs ys| ≤
      (pRound xs.length : ℚ) * ((xs.length : ℚ) - pRound xs.length) := by
  have hpN : pRound xs.length ≤ xs.length := (pRound_lt h9).le
  have hvl : (vNeg xs ys).length = xs.length := vNeg_length xs ys
  have hrl : (rankdata (vNeg xs ys)).length = (vNeg xs ys).length :=
    rankdata_length _
  have hkv : pRound xs.length ≤ (vNeg xs ys).length := by omega
  have hS1 : Finset.range (pRound xs.length) ⊆
      Finset.range (vNeg xs ys).length :=
    Finset.range_subset.mpr hkv
  have hS2 : Finset.Ico ((vNeg xs ys).length - pRound xs.length)
      (vNeg xs ys).length ⊆ Finset.range (vNeg xs ys).length := by
    intro i hi
    rw [Finset.mem_range]
    exact (Finset.mem_Ico.mp hi).2
  have hc1 : (Finset.range (pRound xs.length)).card = pRound xs.length :=
    Finset.card_range _
  have hc2 : (Finset.Ico ((vNeg xs ys).length - pRound xs.length)
      (vNeg xs ys).length).card = pRound xs.length := by
    rw [Nat.card_Ico]
    omega
  have hR1lower := rank_sum_lower (vNeg xs ys) _ hS1
  have hR1upper := rank_sum_upper (vNeg xs ys) _ hS1
  have hR2lower := rank_sum_lower (vNeg xs ys) _ hS2
  have hR2upper := rank_sum_upper (vNeg xs ys) _ hS2
  rw [hc1] at hR1lower hR1upper
  rw [hc2] at hR2lower hR2upper
  have hd := rankDiff_eq hle
  rw [hrl] at hd
  rw [rank_take_sum (vNeg xs ys) hkv,
    rank_drop_sum (vNeg xs ys) (by omega : (vNeg xs ys).length - pRound xs.length ≤ (vNeg xs ys).length)] at hd
  rw [abs_le, show ((xs.length : ℚ)) = (((vNeg xs ys).length : ℕ) : ℚ) by
    rw [hvl]]
  constructor <;> [nlinarith [hd, hR1lower, hR2upper]; nlinarith [hd, hR1upper, hR2lower]]

/-- The denominator p (N - p) of the rate is positive. -/
lemma rate_den_pos {N : ℕ} (h9 : 9 ≤ N) :
    0 < (pRound N : ℚ) * ((N : ℚ) - pRound N) := by
  have h3 := pRound_ge_three h9
  have hlt := pRound_lt h9
  have h1 : (0 : ℚ) < (pRound N : ℚ) := by
    exact_mod_cast Nat.lt_of_lt_of_le (by omega) h3
  have h2 : (pRound N : ℚ) < (N : ℚ) := by exact_mod_cast hlt
  nlinarith

/-- The conjugation rate always lies in [-1, 1]. -/
lemma conjRate_mem (xs ys : List ℚ) (h9 : 9 ≤ xs.length)
    (hle : xs.length ≤ ys.length) :
    -1 ≤ conjRate xs ys ∧ conjRate xs ys ≤ 1 := by
  have hD := rate_den_pos (N := xs.length) h9
  have habs := rankDiff_abs_le h9 hle
  rw [abs_le] at habs
  rw [conjRate]
  constructor
  · rw [le_div_iff₀ hD]
    linarith [habs.1]
  · rw [div_le_one hD]
    exact habs.2

/-! Rank values for strictly monotone data. -/

lemma getD_of_lt {l : List ℚ} {i : ℕ} (h : i < l.length) :
    l.getD i 0 = l[i] := by
  rw [List.getD_eq_getElem?_getD, List.getElem?_eq_getElem h]
  rfl

lemma pairwise_getD {v : List ℚ} {r : ℚ → ℚ → Prop} (hv : v.Pairwise r)
    {a b : ℕ} (hab : a < b) (hb : b < v.length) :
    r (v.getD a 0) (v.getD b 0) := by
  rw [getD_of_lt (lt_trans hab hb), getD_of_lt hb]
  have := List.pairwise_iff_get.mp hv ⟨a, lt_trans hab hb⟩ ⟨b, hb⟩ hab
  simpa [List.get_eq_getElem] using this

/-- In a strictly increasing list the i-th entry has exactly i entries
below it. -/
lemma countP_lt_of_strict_mono {v : List ℚ} (hv : v.Pairwise (· < ·))
    {i : ℕ} (hi : i < v.length) :
    v.countP (fun y => decide (y < v.getD i 0)) = i := by
  rw [countP_eq_sum]
  have hstep : ∀ j ∈ Finset.range v.length,
      (if (fun y => decide (y < v.getD i 0)) (v.getD j 0) then 1 else 0) =
        (if j < i then 1 else 0) := by
    intro j hj
    rw [Finset.mem_range] at hj
    simp only [decide_eq_true_eq]
    rcases Nat.lt_trichotomy j i with h | h | h
    · rw [if_pos (pairwise_getD hv h hi), if_pos h]
    · subst h
      rw [if_neg (lt_irrefl _), if_neg (lt_irrefl _)]
    · rw [if_neg (asymm (pairwise_getD hv h hj)), if_neg (by omega)]
  rw [Finset.sum_congr rfl hstep, ← Finset.card_filter]
  have hfil : (Finset.range v.length).filter (fun j => j < i) =
      Finset.range i := by
    ext j
    simp only [Finset.mem_filter, Finset.mem_range]
    omega
  rw [hfil, Finset.card_range]

/-- In a strictly decreasing list the i-th entry has exactly N - i - 1
entries below it. -/
lemma countP_lt_of_strict_anti {v : List ℚ} (hv : v.Pairwise (fun a b => b < a))
    {i : ℕ} (hi : i < v.length) :
    v.countP (fun y => decide (y < v.getD i 0)) = v.length - (i + 1) := by
  rw [countP_eq_sum]
  have hstep : ∀ j ∈ Finset.range v.length,
      (if (fun y => decide (y < v.getD i 0)) (v.getD j 0) then 1 else 0) =
        (if i < j then 1 else 0) := by
    intro j hj
    rw [Finset.mem_range] at hj
    simp only [decide_eq_true_eq]
    rcases Nat.lt_trichotomy j i with h | h | h
    · rw [if_neg (asymm (pairwise_getD hv h hi)), if_neg (by omega)]
    · subst h
      rw [if_neg (lt_irrefl _), if_neg (lt_irrefl _)]
    · rw [if_pos (pairwise_getD hv h hj), if_pos h]
  rw [Finset.sum_congr rfl hstep, ← Finset.card_filter]
  have hfil : (Finset.range v.length).filter (fun j => i < j) =
      Finset.Ico (i + 1) v.length := by
    ext j
    simp only [Finset.mem_filter, Finset.mem_range, Finset.mem_Ico]
    omega
  rw [hfil, Nat.card_Ico]

/-- An entry of a list without duplicates equals exactly one entry. -/
lemma countP_eq_one_of_irrefl {v : List ℚ} {r : ℚ → ℚ → Prop}
    (hv : v.Pairwise r) (hne : ∀ a b : ℚ, r a b → a ≠ b)
    {i : ℕ} (hi : i < v.length) :
    v.countP (fun y => decide (y = v.getD i 0)) = 1 := by
  rw [countP_eq_sum]
  have hstep : ∀ j ∈ Finset.range v.length,
      (if (fun y => decide (y = v.getD i 0)) (v.getD j 0) then 1 else 0) =
        (if j = i then 1 else 0) := by
    intro j hj
    rw [Finset.mem_range] at hj
    simp only [decide_eq_true_eq]
    rcases Nat.lt_trichotomy j i with h | h | h
    · rw [if_neg (hne _ _ (pairwise_getD hv h hi)), if_neg (by omega)]
    · subst h
      rw [if_pos rfl, if_pos rfl]
    · rw [if_neg (Ne.symm (hne _ _ (pairwise_getD hv h hj))), if_neg (by omega)]
  rw [Finset.sum_congr rfl hstep, Finset.sum_ite_eq' (Finset.range v.length) i
    (fun _ => 1), if_pos (Finset.mem_range.mpr hi)]

lemma getD_map_range (f : ℕ → ℚ) {n i : ℕ} (hi : i < n) :
    ((List.range n).map f).getD i 0 = f i := by
  rw [getD_of_lt (by simpa using hi), List.getElem_map, List.getElem_range]

/-- The ranks of a strictly increasing list are 1, 2, ..., N in order. -/
lemma rankdata_strict_mono {v : List ℚ} (hv : v.Pairwise (· < ·)) :
    rankdata v = (List.range v.length).map (fun i : ℕ => (i : ℚ) + 1) := by
  apply List.ext_getElem
  · rw [rankdata_length, List.length_map, List.length_range]
  intro i hi hi2
  have hiv : i < v.length := by rwa [rankdata_length] at hi
  rw [← getD_of_lt hi, ← getD_of_lt hi2, rankdata_getD v hiv,
    getD_map_range _ (by simpa [rankdata_length] using hiv), rankAt,
    countP_lt_of_strict_mono hv hiv,
    countP_eq_one_of_irrefl hv (fun a b hab => hab.ne) hiv]
  push_cast
  ring

/-- The ranks of a strictly decreasing list are N, N - 1, ..., 1 in
order. -/
lemma rankdata_strict_anti {v : List ℚ} (hv : v.Pairwise (fun a b => b < a)) :
    rankdata v = (List.range v.length).map (fun i : ℕ => (v.length : ℚ) - (i : ℚ)) := by
  apply List.ext_getElem
  · rw [rankdata_length, List.length_map, List.length_range]
  intro i hi hi2
  have hiv : i < v.length := by rwa [rankdata_length] at hi
  rw [← getD_of_lt hi, ← getD_of_lt hi2, rankdata_getD v hiv,
    getD_map_range _ (by simpa [rankdata_length] using hiv), rankAt,
    countP_lt_of_strict_anti hv hiv,
    countP_eq_one_of_irrefl hv (fun a b hab => (Ne.symm hab.ne)) hiv]
  have hcast : ((v.length - (i + 1) : ℕ) : ℚ) =
      (v.length : ℚ) - (i : ℚ) - 1 := by
    push_cast [Nat.cast_sub hiv]
    ring
  rw [hcast]
  push_cast
  ring

/-! Closed forms of the rank sums for strictly monotone data. -/

lemma gauss_id (n : ℕ) :
    ∑ i ∈ Finset.range n, (i : ℚ) = (n : ℚ) * ((n : ℚ) - 1) / 2 := by
  induction n with
  | zero => simp
  | succ m ih =>
      rw [Finset.sum_range_succ, ih]
      push_cast
      ring

lemma map_range_take_sum (f : ℕ → ℚ) {N p : ℕ} (hp : p ≤ N) :
    (((List.range N).map f).take p).sum = ∑ i ∈ Finset.range p, f i := by
  rw [take_sum_eq _ (by simp [hp])]
  exact Finset.sum_congr rfl (fun i hi =>
    getD_map_range f (lt_of_lt_of_le (Finset.mem_range.mp hi) hp))

lemma map_range_drop_sum (f : ℕ → ℚ) {N k : ℕ} (hk : k ≤ N) :
    (((List.range N).map f).drop k).sum = ∑ i ∈ Finset.Ico k N, f i := by
  rw [drop_sum_eq _ (by simp [hk])]
  simp only [List.length_map, List.length_range]
  exact Finset.sum_congr rfl (fun i hi =>
    getD_map_range f (Finset.mem_Ico.mp hi).2)

lemma sum_range_succ_shift (n : ℕ) :
    ∑ i ∈ Finset.range n, ((i : ℚ) + 1) = (n : ℚ) * ((n : ℚ) + 1) / 2 := by
  rw [Finset.sum_add_distrib, gauss_id, Finset.sum_const, Finset.card_range,
    nsmul_eq_mul]
  ring

lemma sum_range_flip (N m : ℕ) :
    ∑ i ∈ Finset.range m, ((N : ℚ) - (i : ℚ)) =
      (m : ℚ) * (N : ℚ) - (m : ℚ) * ((m : ℚ) - 1) / 2 := by
  rw [Finset.sum_sub_distrib, gauss_id, Finset.sum_const, Finset.card_range,
    nsmul_eq_mul]

/-- In the strictly decreasing scenario the ranks in x-order are
1, 2, ..., N: R1 is the least achievable rank sum 1 + ... + p and
R1 - R2 equals -p (N - p). -/
lemma extremes_of_dec (xs ys : List ℚ) (h9 : 9 ≤ xs.length)
    (hlen : ys.length = xs.length)
    (hdec : (ysOrd xs ys).Pairwise (fun a b => b < a)) :
    R1of xs ys = (pRound xs.length : ℚ) * ((pRound xs.length : ℚ) + 1) / 2 ∧
      rankDiff xs ys =
        -((pRound xs.length : ℚ) * ((xs.length : ℚ) - (pRound xs.length : ℚ))) := by
  have hle : xs.length ≤ ys.length := hlen.ge
  have hp : pRound xs.length ≤ xs.length := (pRound_lt h9).le
  have hmono : (vNeg xs ys).Pairwise (· < ·) := by
    rw [vNeg, List.pairwise_map]
    exact hdec.imp (fun h => neg_lt_neg h)
  have hvl : (vNeg xs ys).length = xs.length := vNeg_length xs ys
  have hranks : rankdata (vNeg xs ys) =
      (List.range xs.length).map (fun i : ℕ => (i : ℚ) + 1) := by
    rw [rankdata_strict_mono hmono, hvl]
  have hrlen : (rankdata (vNeg xs ys)).length = xs.length := by
    rw [rankdata_length, hvl]
  have hR1 : ((rankdata (vNeg xs ys)).take (pRound xs.length)).sum =
      (pRound xs.length : ℚ) * ((pRound xs.length : ℚ) + 1) / 2 := by
    rw [hranks, map_range_take_sum _ hp, sum_range_succ_shift]
  have hR2 : ((rankdata (vNeg xs ys)).drop
      ((rankdata (vNeg xs ys)).length - pRound xs.length)).sum =
      (xs.length : ℚ) * ((xs.length : ℚ) + 1) / 2 -
        ((xs.length - pRound xs.length : ℕ) : ℚ) *
          (((xs.length - pRound xs.length : ℕ) : ℚ) + 1) / 2 := by
    rw [hrlen, hranks, map_range_drop_sum _ (Nat.sub_le _ _),
      Finset.sum_Ico_eq_sub _ (Nat.sub_le _ _), sum_range_succ_shift,
      sum_range_succ_shift]
  constructor
  · rw [R1of_eq hle, hR1]
  · rw [rankDiff_eq hle, hR1, hR2]
    push_cast [Nat.cast_sub hp]
    ring

/-- In the strictly increasing scenario the ranks in x-order are
N, N - 1, ..., 1 and R1 - R2 equals p (N - p). -/
lemma extremes_of_inc (xs ys : List ℚ) (h9 : 9 ≤ xs.length)
    (hlen : ys.length = xs.length)
    (hinc : (ysOrd xs ys).Pairwise (· < ·)) :
    rankDiff xs ys =
      (pRound xs.length : ℚ) * ((xs.length : ℚ) - (pRound xs.length : ℚ)) := by
  have hle : xs.length ≤ ys.length := hlen.ge
  have hp : pRound xs.length ≤ xs.length := (pRound_lt h9).le
  have hanti : (vNeg xs ys).Pairwise (fun a b => b < a) := by
    rw [vNeg, List.pairwise_map]
    exact hinc.imp (fun h => neg_lt_neg h)
  have hvl : (vNeg xs ys).length = xs.length := vNeg_length xs ys
  have hranks : rankdata (vNeg xs ys) =
      (List.range xs.length).map
        (fun i : ℕ => (xs.length : ℚ) - (i : ℚ)) := by
    rw [rankdata_strict_anti hanti, hvl]
  have hrlen : (rankdata (vNeg xs ys)).length = xs.length := by
    rw [rankdata_length, hvl]
  have hR1 : ((rankdata (vNeg xs ys)).take (pRound xs.length)).sum =
      (pRound xs.length : ℚ) * (xs.length : ℚ) -
        (pRound xs.length : ℚ) * ((pRound xs.length : ℚ) - 1) / 2 := by
    rw [hranks, map_range_take_sum _ hp, sum_range_flip]
  have hR2 : ((rankdata (vNeg xs ys)).drop
      ((rankdata (vNeg xs ys)).length - pRound xs.length)).sum =
      ((xs.length : ℚ) * (xs.length : ℚ) -
          (xs.length : ℚ) * ((xs.length : ℚ) - 1) / 2) -
        (((xs.length - pRound xs.length : ℕ) : ℚ) * (xs.length : ℚ) -
          ((xs.length - pRound xs.length : ℕ) : ℚ) *
            (((xs.length - pRound xs.length : ℕ) : ℚ) - 1) / 2) := by
    rw [hrlen, hranks, map_range_drop_sum _ (Nat.sub_le _ _),
      Finset.sum_Ico_eq_sub _ (Nat.sub_le _ _), sum_range_flip, sum_range_flip]
  rw [rankDiff_eq hle, hR1, hR2]
  push_cast [Nat.cast_sub hp]
  ring

/-- An entry strictly below every other entry receives rank 1. -/
lemma rank_one_of_strict_min {v : List ℚ} {i : ℕ} (hi : i < v.length)
    (hmin : ∀ j, j < v.length → j ≠ i → v.getD i 0 < v.getD j 0) :
    rankAt v (v.getD i 0) = 1 := by
  have hlt : v.countP (fun y => decide (y < v.getD i 0)) = 0 := by
    rw [countP_eq_sum]
    refine Finset.sum_eq_zero (fun j hj => ?_)
    rw [Finset.mem_range] at hj
    simp only [decide_eq_true_eq]
    rcases eq_or_ne j i with h | h
    · subst h
      rw [if_neg (lt_irrefl _)]
    · rw [if_neg (asymm (hmin j hj h))]
  have heq : v.countP (fun y => decide (y = v.getD i 0)) = 1 := by
    rw [countP_eq_sum]
    have hstep : ∀ j ∈ Finset.range v.length,
        (if (fun y => decide (y = v.getD i 0)) (v.getD j 0) then 1 else 0) =
          (if j = i then 1 else 0) := by
      intro j hj
      rw [Finset.mem_range] at hj
      simp only [decide_eq_true_eq]
      rcases eq_or_ne j i with h | h
      · subst h
        rw [if_pos rfl, if_pos rfl]
      · rw [if_neg (Ne.symm (hmin j hj h).ne), if_neg h]
    rw [Finset.sum_congr rfl hstep, Finset.sum_ite_eq'
      (Finset.range v.length) i (fun _ => 1), if_pos (Finset.mem_range.mpr hi)]
  rw [rankAt, hlt, heq]
  norm_num

lemma vNeg_getD {xs ys : List ℚ} {j : ℕ} (hj : j < xs.length) :
    (vNeg xs ys).getD j 0 = -((ysOrd xs ys).getD j 0) := by
  have hj2 : j < (ysOrd xs ys).length := by rw [ysOrd_length]; exact hj
  rw [vNeg, getD_of_lt (by rw [List.length_map]; exact hj2),
    List.getElem_map, getD_of_lt hj2]

/-! Ranks are half-integers. -/

lemma two_mul_rankAt_nat (v : List ℚ) (x : ℚ) :
    ∃ m : ℕ, 2 * rankAt v x = (m : ℚ) := by
  refine ⟨2 * v.countP (fun y => decide (y < x)) +
    v.countP (fun y => decide (y = x)) + 1, ?_⟩
  rw [rankAt]
  push_cast
  ring

lemma twice_sum_int {l : List ℚ} (h : ∀ x ∈ l, ∃ m : ℤ, 2 * x = (m : ℚ)) :
    ∃ k : ℤ, 2 * l.sum = (k : ℚ) := by
  induction l with
  | nil => exact ⟨0, by simp⟩
  | cons a t ih =>
      obtain ⟨m, hm⟩ := h a (List.mem_cons_self a t)
      obtain ⟨k, hk⟩ := ih (fun x hx => h x (List.mem_cons_of_mem a hx))
      refine ⟨m + k, ?_⟩
      rw [List.sum_cons]
      push_cast
      linarith

lemma rankdata_mem_twice {v : List ℚ} {x : ℚ} (hx : x ∈ rankdata v) :
    ∃ m : ℤ, 2 * x = (m : ℚ) := by
  rw [rankdata, List.mem_map] at hx
  obtain ⟨y, _, rfl⟩ := hx
  obtain ⟨m, hm⟩ := two_mul_rankAt_nat v y
  exact ⟨m, by exact_mod_cast hm⟩

/-- R1 - R2 is an integer multiple of 1/2: average-rank ties can make it a
half-integer. -/
lemma rankDiff_twice_int {xs ys : List ℚ} (hle : xs.length ≤ ys.length) :
    ∃ k : ℤ, 2 * rankDiff xs ys = (k : ℚ) := by
  rw [rankDiff_eq hle]
  obtain ⟨k1, hk1⟩ := twice_sum_int (l :=
    (rankdata (vNeg xs ys)).take (pRound xs.length))
    (fun x hx => rankdata_mem_twice (List.mem_of_mem_take hx))
  obtain ⟨k2, hk2⟩ := twice_sum_int (l :=
    (rankdata (vNeg xs ys)).drop
      ((rankdata (vNeg xs ys)).length - pRound xs.length))
    (fun x hx => rankdata_mem_twice (List.mem_of_mem_drop hx))
  refine ⟨k1 - k2, ?_⟩
  push_cast
  linarith

/-- check_mon_conj never raises the validation error once N ≥ 9. -/
lemma check_ne_invalid {xs ys : List ℚ} (h9 : 9 ≤ xs.length) :
    check_mon_conj xs ys ≠
      .error "Number of points must be not less than 9" := by
  rw [check_mon_conj, if_neg (by omega)]
  rcases hg : gather ys (argsort xs) with _ | l <;> rw [get_ranks, hg]
  · intro hc
    injection hc with hstr
    exact absurd hstr (by decide)
  · intro hc
    cases hc

/-! The claims. -/

/-- C2: for every pair of input sequences of length N < 9 the check
fails with the InvalidInputError message "Number of points must be not
less than 9" whatever the data, and for N ≥ 9 this error is never
raised. -/
theorem claim2_invalid_input_gate (xs ys : List ℚ) :
    (xs.length < 9 →
      check_mon_conj xs ys =
        .error "Number of points must be not less than 9") ∧
    (9 ≤ xs.length →
      check_mon_conj xs ys ≠
        .error "Number of points must be not less than 9") :=
  ⟨fun h => check_err_of_short h, fun h9 => check_ne_invalid h9⟩

theorem claim2_witness :
    check_mon_conj [1, 2, 3, 4, 5, 6, 7, 8] [1, 2, 3, 4, 5, 6, 7, 8] =
        .error "Number of points must be not less than 9" ∧
      check_mon_conj xsSeq ysInc ≠
        .error "Number of points must be not less than 9" :=
  ⟨(claim2_invalid_input_gate [1, 2, 3, 4, 5, 6, 7, 8]
      [1, 2, 3, 4, 5, 6, 7, 8]).1 (by decide),
   (claim2_invalid_input_gate xsSeq ysInc).2 (by decide)⟩

/-- C7: when the data has fewer than 9 samples the main flow raises the
validation error before any write, so no output content is produced. -/
theorem claim7_no_write_on_invalid (xs ys : List ℚ) (h : xs.length < 9) :
    mainModel xs ys = none := by
  rw [mainModel, check_err_of_short h]

theorem claim7_witness :
    mainModel [1, 2, 3, 4, 5, 6, 7, 8] [2, 4, 6, 8, 10, 12, 14, 16] = none :=
  claim7_no_write_on_invalid [1, 2, 3, 4, 5, 6, 7, 8]
    [2, 4, 6, 8, 10, 12, 14, 16] (by decide)

/-- C9: for equal-length inputs with N ≥ 9 the conjugation rate before
its 2-decimal rounding lies in [-1, 1]. -/
theorem claim9_rate_bounded (xs ys : List ℚ) (h9 : 9 ≤ xs.length)
    (hlen : ys.length = xs.length) :
    -1 ≤ conjRate xs ys ∧ conjRate xs ys ≤ 1 :=
  conjRate_mem xs ys h9 hlen.ge

theorem claim9_witness :
    -1 ≤ conjRate xsSeq ysDec ∧ conjRate xsSeq ysDec ≤ 1 :=
  claim9_rate_bounded xsSeq ysDec (by decide) (by decide)

/-- C10: the precondition is checked against len(xs) alone. With
len(xs) ≥ 9 the InvalidInputError is never raised whatever len(ys): a
longer ys is silently subsetted and the check succeeds, a shorter ys
makes the fancy indexing fail with an out-of-bounds error instead. -/
theorem claim10_no_length_validation (xs ys : List ℚ) (h9 : 9 ≤ xs.length) :
    check_mon_conj xs ys ≠
        .error "Number of points must be not less than 9" ∧
      (xs.length ≤ ys.length → ∃ t, check_mon_conj xs ys = .ok t) ∧
      (ys.length < xs.length →
        check_mon_conj xs ys = .error "IndexError") := by
  refine ⟨check_ne_invalid h9, fun hle => ⟨_, check_eq_ok h9 hle⟩, fun hlt => ?_⟩
  rw [check_mon_conj, if_neg (by omega), get_ranks_err (by omega) hlt]

theorem claim10_witness :
    (∃ t, check_mon_conj xsSeq [1, 2, 3, 4, 5, 6, 7, 8, 9, 10] = .ok t) ∧
      check_mon_conj xsSeq [1, 2, 3, 4, 5, 6, 7, 8] = .error "IndexError" :=
  ⟨(claim10_no_length_validation xsSeq [1, 2, 3, 4, 5, 6, 7, 8, 9, 10]
      (by decide)).2.1 (by decide),
   (claim10_no_length_validation xsSeq [1, 2, 3, 4, 5, 6, 7, 8]
      (by decide)).2.2 (by decide)⟩

/-- C6: for equal-length inputs the ranks always sum to N (N + 1) / 2
exactly, whatever the tie pattern, and a y value strictly above all
others receives rank 1. -/
theorem claim6_rank_sum_invariant (xs ys : List ℚ)
    (hlen : ys.length = xs.length) :
    ∃ r, get_ranks xs ys = .ok r ∧
      r.sum = (xs.length : ℚ) * ((xs.length : ℚ) + 1) / 2 ∧
      ∀ i, i < xs.length →
        (∀ j, j < xs.length → j ≠ i →
          (ysOrd xs ys).getD j 0 < (ysOrd xs ys).getD i 0) →
        r.getD i 0 = 1 := by
  refine ⟨rankdata (vNeg xs ys), by rw [get_ranks_ok hlen.ge, vNeg], ?_, ?_⟩
  · rw [sum_eq_getD_sum, rankdata_length, vNeg_length]
    have h1 : ∀ i ∈ Finset.range xs.length,
        (rankdata (vNeg xs ys)).getD i 0 =
          rankAt (vNeg xs ys) ((vNeg xs ys).getD i 0) := fun i hi =>
      rankdata_getD _ (by rw [vNeg_length]; exact Finset.mem_range.mp hi)
    have h2 := rank_sum_total (vNeg xs ys)
    rw [vNeg_length] at h2
    rw [Finset.sum_congr rfl h1]
    rw [show Finset.range xs.length =
      Finset.range (vNeg xs ys).length from by rw [vNeg_length]] at h2 ⊢
    rw [h2]
  · intro i hi hmax
    rw [rankdata_getD _ (by rw [vNeg_length]; exact hi)]
    refine rank_one_of_strict_min (by rw [vNeg_length]; exact hi) ?_
    intro j hj hji
    rw [vNeg_length] at hj
    rw [vNeg_getD hj, vNeg_getD hi]
    exact neg_lt_neg (hmax j hj hji)

theorem claim6_witness :
    ∃ r, get_ranks xsSeq ysTies = .ok r ∧
      r.sum = (xsSeq.length : ℚ) * ((xsSeq.length : ℚ) + 1) / 2 ∧
      ∀ i, i < xsSeq.length →
        (∀ j, j < xsSeq.length → j ≠ i →
          (ysOrd xsSeq ysTies).getD j 0 < (ysOrd xsSeq ysTies).getD i 0) →
        r.getD i 0 = 1 :=
  claim6_rank_sum_invariant xsSeq ysTies (by decide)

lemma rankDiff_ysTie : rankDiff xsSeq ysTie = 3 / 2 := by
  have hv : vNeg xsSeq ysTie =
      [-11, -4, -18, -11, -8, -2, -16, -14, -6] := by decide
  have hr : rankdata [(-11 : ℚ), -4, -18, -11, -8, -2, -16, -14, -6] =
      [9/2, 8, 1, 9/2, 6, 9, 2, 3, 7] := by
    norm_num [rankdata, rankAt, List.countP_cons, List.countP_nil]
  rw [rankDiff_eq (by decide), hv, hr]
  norm_num [show pRound xsSeq.length = 3 from by decide, List.take,
    List.drop, List.sum_cons, List.sum_nil]

/-- C3 as stated is false: on this input R1 - R2 = 1.5; the spec says
the first component is round(R1 - R2) = 2, but the code returns
int(R1 - R2) = 1. -/
theorem claim3_counterexample :
    rankDiff xsSeq ysTie = 3 / 2 ∧
      bankersRound (rankDiff xsSeq ysTie) = 2 ∧
      (check_mon_conj xsSeq ysTie).toOption.map Prod.fst = some 1 ∧
      (1 : ℤ) ≠ 2 := by
  refine ⟨rankDiff_ysTie, ?_, ?_, by decide⟩
  · rw [rankDiff_ysTie, bankersRound]
    norm_num
  · rw [check_eq_ok (by decide) (by decide)]
    have h1 : pyInt (rankDiff xsSeq ysTie) = 1 := by
      rw [rankDiff_ysTie, pyInt, if_pos (by norm_num)]
      norm_num
    rw [Except.toOption, Option.map, h1]

/-- C3 amended: the first component of the result is R1 - R2 truncated
toward zero, Python int(); R1 - R2 is always an integer multiple of 1/2
and with average-rank ties it can be a half-integer, where truncation
differs from rounding. -/
theorem claim3_diff_truncated (xs ys : List ℚ) (h9 : 9 ≤ xs.length)
    (hlen : ys.length = xs.length) :
    ∃ t : ℤ × ℤ × ℚ, check_mon_conj xs ys = .ok t ∧
      t.1 = (if 0 ≤ rankDiff xs ys then ⌊rankDiff xs ys⌋
        else ⌈rankDiff xs ys⌉) ∧
      ∃ k : ℤ, 2 * rankDiff xs ys = (k : ℚ) :=
  ⟨_, check_eq_ok h9 hlen.ge, rfl, rankDiff_twice_int hlen.ge⟩

theorem claim3_witness :
    ∃ t : ℤ × ℤ × ℚ, check_mon_conj xsSeq ysInc = .ok t ∧
      t.1 = (if 0 ≤ rankDiff xsSeq ysInc then ⌊rankDiff xsSeq ysInc⌋
        else ⌈rankDiff xsSeq ysInc⌉) ∧
      ∃ k : ℤ, 2 * rankDiff xsSeq ysInc = (k : ℚ) :=
  claim3_diff_truncated xsSeq ysInc (by decide) (by decide)

/-- C4 as stated is false: the guaranteed contract of np.argsort (any
valid sorting permutation of the indices) admits, already for
xs = [1, 1], the permutation [1, 0], which sorts xs but reverses the
relative order of the two equal x values. -/
theorem claim4_counterexample :
    isSortingPerm [1, 1] [1, 0] ∧ ¬ preservesEqualOrder [1, 1] [1, 0] := by
  decide

/-- C4 amended: get_ranks orders the pairs by x ascending through
np.argsort, whose result is an index permutation of 0..N-1 along which
xs is nondecreasing — the model realizes one admissible such choice,
the stable one — but preservation of the relative order of equal-x
pairs is not part of the contract of the default argsort kind. -/
theorem claim4_sorting_contract :
    ∀ xs : List ℚ, isSortingPerm xs (argsort xs) :=
  fun xs => ⟨argsort_perm xs, argsort_sorted xs⟩

/-- The least possible value of R1 over all inputs of a given length. -/
lemma R1of_lower (xs ys : List ℚ) (h9 : 9 ≤ xs.length)
    (hle : xs.length ≤ ys.length) :
    (pRound xs.length : ℚ) * ((pRound xs.length : ℚ) + 1) / 2 ≤
      R1of xs ys := by
  have hp : pRound xs.length ≤ (vNeg xs ys).length := by
    rw [vNeg_length]
    exact (pRound_lt h9).le
  rw [R1of_eq hle, rank_take_sum _ hp]
  have h := rank_sum_lower (vNeg xs ys) (Finset.range (pRound xs.length))
    (Finset.range_subset.mpr hp)
  rwa [Finset.card_range] at h

lemma conjRate_ysDec : conjRate xsSeq ysDec = -1 := by
  have hd := (extremes_of_dec xsSeq ysDec
    (by decide) (by decide) (by decide)).2
  have hD := rate_den_pos (N := xsSeq.length) (by decide)
  rw [conjRate, hd, neg_div, div_self hD.ne']

lemma conjRate_ysInc : conjRate xsSeq ysInc = 1 := by
  have hd := extremes_of_inc xsSeq ysInc
    (by decide) (by decide) (by decide)
  have hD := rate_den_pos (N := xsSeq.length) (by decide)
  rw [conjRate, hd, div_self hD.ne']

/-- C5 as stated is false: on the strictly decreasing scenario the rate
is -1 while +1 is attainable for the same N and p (by the strictly
increasing input), so the rate of the decreasing input is not the
maximum attainable value, and symmetrically for the increasing input. -/
theorem claim5_counterexample :
    (ysOrd xsSeq ysDec).Pairwise (fun a b => b < a) ∧
      (ysOrd xsSeq ysInc).Pairwise (· < ·) ∧
      conjRate xsSeq ysDec = -1 ∧ conjRate xsSeq ysInc = 1 ∧
      ¬ (conjRate xsSeq ysInc ≤ conjRate xsSeq ysDec) := by
  refine ⟨by decide, by decide, conjRate_ysDec, conjRate_ysInc, ?_⟩
  rw [conjRate_ysDec, conjRate_ysInc]
  norm_num

/-- C5 amended: when ys is strictly decreasing in x (after sorting by
x) R1 = p(p+1)/2 is the sum of the p smallest possible rank values —
the least R1 attainable over any equal-length input of that length —
and the rate is -1, its minimum attainable value; when ys is strictly
increasing the rate is +1, its maximum attainable value. (The claim
swaps maximum and minimum.) -/
theorem claim5_monotone_extremes (xs ys : List ℚ) (h9 : 9 ≤ xs.length)
    (hlen : ys.length = xs.length) :
    ((ysOrd xs ys).Pairwise (fun a b => b < a) →
      R1of xs ys =
          (pRound xs.length : ℚ) * ((pRound xs.length : ℚ) + 1) / 2 ∧
        (∀ xs2 ys2 : List ℚ, xs2.length = xs.length →
          ys2.length = xs2.length → R1of xs ys ≤ R1of xs2 ys2) ∧
        conjRate xs ys = -1 ∧
        (∀ xs2 ys2 : List ℚ, xs2.length = xs.length →
          ys2.length = xs2.length → conjRate xs ys ≤ conjRate xs2 ys2)) ∧
    ((ysOrd xs ys).Pairwise (· < ·) →
      conjRate xs ys = 1 ∧
        (∀ xs2 ys2 : List ℚ, xs2.length = xs.length →
          ys2.length = xs2.length → conjRate xs2 ys2 ≤ conjRate xs ys)) := by
  constructor
  · intro hdec
    obtain ⟨hR1, hd⟩ := extremes_of_dec xs ys h9 hlen hdec
    have hrate : conjRate xs ys = -1 := by
      have hD := rate_den_pos (N := xs.length) h9
      rw [conjRate, hd, neg_div, div_self hD.ne']
    refine ⟨hR1, ?_, hrate, ?_⟩
    · intro xs2 ys2 hx2 hy2
      have h92 : 9 ≤ xs2.length := by omega
      have hlow := R1of_lower xs2 ys2 h92 hy2.ge
      rw [hx2] at hlow
      rw [hR1]
      exact hlow
    · intro xs2 ys2 hx2 hy2
      have h92 : 9 ≤ xs2.length := by omega
      have hb := (conjRate_mem xs2 ys2 h92 hy2.ge).1
      rw [hrate]
      exact hb
  · intro hinc
    have hd := extremes_of_inc xs ys h9 hlen hinc
    have hrate : conjRate xs ys = 1 := by
      have hD := rate_den_pos (N := xs.length) h9
      rw [conjRate, hd, div_self hD.ne']
    refine ⟨hrate, ?_⟩
    intro xs2 ys2 hx2 hy2
    have h92 : 9 ≤ xs2.length := by omega
    have hb := (conjRate_mem xs2 ys2 h92 hy2.ge).2
    rw [hrate]
    exact hb

theorem claim5_witness :
    R1of xsSeq ysDec =
        (pRound xsSeq.length : ℚ) * ((pRound xsSeq.length : ℚ) + 1) / 2 ∧
      (∀ xs2 ys2 : List ℚ, xs2.length = xsSeq.length →
        ys2.length = xs2.length → R1of xsSeq ysDec ≤ R1of xs2 ys2) ∧
      conjRate xsSeq ysDec = -1 ∧
      (∀ xs2 ys2 : List ℚ, xs2.length = xsSeq.length →
        ys2.length = xs2.length → conjRate xsSeq ysDec ≤ conjRate xs2 ys2) :=
  (claim5_monotone_extremes xsSeq ysDec (by decide) (by decide)).1 (by decide)

/-! The worked scenarios. -/

lemma roundSqrt_361_8 : roundSqrtN (361 / 8) = 7 := by
  have h1 : (⌊(4 : ℚ) * (361 / 8)⌋ : ℤ) = 180 := by norm_num
  have h2 : isqrt (Int.toNat 180) = 13 := by decide
  rw [roundSqrtN, h1, h2]
  norm_num

lemma std_arg_nine :
    ((xsSeq.length : ℚ) + 1/2) ^ 2 * ((pRound xsSeq.length : ℚ) / 6) =
      361 / 8 := by
  norm_num [show pRound 9 = 3 from by decide,
    show xsSeq.length = 9 from by decide]

lemma check_scenarioA : check_mon_conj xsSeq ysDec = .ok (-18, 7, -1) := by
  rw [check_eq_ok (by decide) (by decide)]
  have hd := (extremes_of_dec xsSeq ysDec
    (by decide) (by decide) (by decide)).2
  rw [show pRound xsSeq.length = 3 from by decide,
    show xsSeq.length = 9 from by decide] at hd
  norm_num at hd
  have h1 : pyInt (rankDiff xsSeq ysDec) = -18 := by
    rw [hd, pyInt, if_neg (by norm_num),
      show ((-18 : ℚ)) = ((-18 : ℤ) : ℚ) from by norm_num, Int.ceil_intCast]
  have h2 : pyRound2 (conjRate xsSeq ysDec) = -1 := by
    rw [conjRate_ysDec]
    have hb : bankersRound ((-1 : ℚ) * 100) = -100 := by
      rw [bankersRound]
      norm_num
    rw [pyRound2, hb]
    norm_num
  rw [h1, h2, std_arg_nine, roundSqrt_361_8]
  norm_num

lemma check_scenarioB : check_mon_conj xsSeq ysInc = .ok (18, 7, 1) := by
  rw [check_eq_ok (by decide) (by decide)]
  have hd := extremes_of_inc xsSeq ysInc
    (by decide) (by decide) (by decide)
  rw [show pRound xsSeq.length = 3 from by decide,
    show xsSeq.length = 9 from by decide] at hd
  norm_num at hd
  have h1 : pyInt (rankDiff xsSeq ysInc) = 18 := by
    rw [hd, pyInt, if_pos (by norm_num),
      show ((18 : ℚ)) = ((18 : ℤ) : ℚ) from by norm_num, Int.floor_intCast]
  have h2 : pyRound2 (conjRate xsSeq ysInc) = 1 := by
    rw [conjRate_ysInc]
    have hb : bankersRound ((1 : ℚ) * 100) = 100 := by
      rw [bankersRound]
      norm_num
    rw [pyRound2, hb]
    norm_num
  rw [h1, h2, std_arg_nine, roundSqrt_361_8]
  norm_num

/-- C1: the two worked scenarios: for xs = 1..9, the perfectly
decreasing ys yields the triple (-18, 7, -1.0) and the perfectly
increasing ys yields (18, 7, 1.0). -/
theorem claim1_fixed_scenarios :
    check_mon_conj xsSeq ysDec = .ok (-18, 7, -1) ∧
      check_mon_conj xsSeq ysInc = .ok (18, 7, 1) :=
  ⟨check_scenarioA, check_scenarioB⟩

/-! The shape of the output line. -/

lemma takeWhile_append_all {p : Char → Bool} {l1 l2 : List Char}
    (h : ∀ c ∈ l1, p c = true) :
    (l1 ++ l2).takeWhile p = l1 ++ l2.takeWhile p := by
  induction l1 with
  | nil => simp
  | cons a t ih =>
      rw [List.cons_append, List.takeWhile_cons,
        if_pos (h a (List.mem_cons_self a t)),
        ih (fun c hc => h c (List.mem_cons_of_mem a hc)), List.cons_append]

/-- Counting the displayed decimals of a dot-separated string. -/
lemma fracDigits_concat (a b : String)
    (hb : ∀ c ∈ b.data, decide (c ≠ '.') = true) :
    fracDigits (a ++ "." ++ b) = b.data.length := by
  rw [fracDigits, String.data_append, String.data_append,
    show ("." : String).data = ['.'] from rfl, List.reverse_append,
    List.reverse_append,
    show (['.'] : List Char).reverse = ['.'] from rfl,
    List.singleton_append,
    takeWhile_append_all (fun c hc => hb c (List.mem_reverse.mp hc)),
    List.takeWhile_cons, if_neg (by decide), List.append_nil,
    List.length_reverse]

/-- The fractional digit block is one or two digits and contains no
dot. -/
lemma fracPartStr_spec : ∀ fp : ℕ, fp < 100 →
    (1 ≤ (fracPartStr fp).data.length ∧ (fracPartStr fp).data.length ≤ 2) ∧
      ∀ c ∈ (fracPartStr fp).data, decide (c ≠ '.') = true := by decide

/-- Every formatted rate shows one or two decimal digits. -/
lemma pyFloatStr_fracDigits (x : ℚ) :
    1 ≤ fracDigits (pyFloatStr x) ∧ fracDigits (pyFloatStr x) ≤ 2 := by
  have hfp : (⌊x * 100⌋).natAbs % 100 < 100 := Nat.mod_lt _ (by norm_num)
  have hspec := fracPartStr_spec _ hfp
  have hconcat := fracDigits_concat
    ((if x < 0 then "-" else "") ++ toString ((⌊x * 100⌋).natAbs / 100))
    (fracPartStr ((⌊x * 100⌋).natAbs % 100)) hspec.2
  rw [pyFloatStr, hconcat]
  exact hspec.1

lemma pyFloatStr_one : pyFloatStr 1 = "1.0" := by
  have hfl : (⌊(1 : ℚ) * 100⌋ : ℤ) = 100 := by norm_num
  rw [pyFloatStr, hfl, if_neg (by norm_num)]
  rfl

/-- C8 as stated is false: on the increasing scenario the written line
is "18 7 1.0" with a newline — the rate is displayed with one decimal
digit, not exactly two. -/
theorem claim8_counterexample :
    mainModel xsSeq ysInc = some ("18 7 " ++ "1.0" ++ "\n") ∧
      pyFloatStr 1 = "1.0" ∧ fracDigits "1.0" = 1 ∧ (1 : ℕ) ≠ 2 := by
  refine ⟨?_, pyFloatStr_one, by decide, by decide⟩
  rw [mainModel, check_scenarioB]
  show some (saveLine (18, 7, 1)) = _
  rw [saveLine]
  show some (toString (18 : ℤ) ++ " " ++ toString (7 : ℤ) ++ " " ++
    pyFloatStr 1 ++ "\n") = _
  rw [pyFloatStr_one]
  rfl

/-- C8 amended: on success the output is the single line
"diff std rate" followed by a newline, with the two integers in decimal
and the rate — which is an exact multiple of 0.01 — in Python float
form, displayed with one or two decimal digits (a trailing zero digit
is dropped), not always exactly two. -/
theorem claim8_output_format (xs ys : List ℚ) (h9 : 9 ≤ xs.length)
    (hlen : ys.length = xs.length) :
    ∃ d s : ℤ, ∃ r : ℚ,
      check_mon_conj xs ys = .ok (d, s, r) ∧
      mainModel xs ys =
        some (toString d ++ " " ++ toString s ++ " " ++
          pyFloatStr r ++ "\n") ∧
      (∃ k : ℤ, r = (k : ℚ) / 100) ∧
      1 ≤ fracDigits (pyFloatStr r) ∧ fracDigits (pyFloatStr r) ≤ 2 := by
  refine ⟨_, _, _, check_eq_ok h9 hlen.ge, ?_,
    ⟨bankersRound (conjRate xs ys * 100), rfl⟩, pyFloatStr_fracDigits _⟩
  rw [mainModel, check_eq_ok h9 hlen.ge]
  rfl

theorem claim8_witness :
    ∃ d s : ℤ, ∃ r : ℚ,
      check_mon_conj xsSeq ysInc = .ok (d, s, r) ∧
      mainModel xsSeq ysInc =
        some (toString d ++ " " ++ toString s ++ " " ++
          pyFloatStr r ++ "\n") ∧
      (∃ k : ℤ, r = (k : ℚ) / 100) ∧
      1 ≤ fracDigits (pyFloatStr r) ∧ fracDigits (pyFloatStr r) ≤ 2 :=
  claim8_output_format xsSeq ysInc (by decide) (by decide)

end MonConj
